import Mathlib

/-!
Shallow embedding of `tools/tag_release.py`.

The script rewrites a version declaration in `plugin/util.py` using one of
two regular expressions, commits the change, creates a git tag and
optionally pushes.  Texts are modelled as `List Char`; the two regular
expressions are modelled by deterministic scanners (both patterns are
backtracking-free: every Kleene item is followed by a character it can
never match), and the surrounding procedure by pure functions over an
oracle describing the outcome of each git command.
-/

namespace TagRelease

/-- Python whitespace test: the character class matched by the re module's
s-escape (and removed by str.strip) for text patterns. -/
def pySpace (c : Char) : Bool :=
  c == ' ' || c == '\t' || c == '\n' || c == '\r' || c == '\x0b' || c == '\x0c' ||
  c == '\x1c' || c == '\x1d' || c == '\x1e' || c == '\x1f' || c == '\x85' || c == '\xa0' ||
  c == ' ' || (decide (' ' ≤ c) && decide (c ≤ ' ')) ||
  c == ' ' || c == ' ' || c == ' ' || c == ' ' || c == '　'

/-- Quote characters: the character class written as single-or-double quote
in both regular expressions of `update_util_version`. -/
def isQuote (c : Char) : Bool := c == '\'' || c == '"'

/-- Character list of a string literal. -/
def str (s : String) : List Char := s.toList

/-- The literal word version appearing in both patterns. -/
def versionLit : List Char := ['v', 'e', 'r', 's', 'i', 'o', 'n']

/-- Greedy scan of a whitespace run, as the s-star regex item: the consumed
run and the remaining text. -/
def scanSpaces (s : List Char) : List Char × List Char :=
  (s.takeWhile pySpace, s.dropWhile pySpace)

/-- Greedy scan of a non-empty quoted value body, as the regex item
matching one or more non-quote characters. -/
def scanValue (s : List Char) : List Char × List Char :=
  (s.takeWhile (fun c => !(isQuote c)), s.dropWhile (fun c => !(isQuote c)))

/-- Match one literal character, as a literal in the regex. -/
def scanChar (c : Char) : List Char → Option (List Char)
  | [] => none
  | a :: s => if a = c then some s else none

/-- Match one quote character, as the single-or-double-quote class. -/
def scanQuote : List Char → Option (Char × List Char)
  | [] => none
  | a :: s => if isQuote a then some (a, s) else none

/-- Match a literal character sequence, as a literal word in the regex. -/
def dropLit : List Char → List Char → Option (List Char)
  | [], s => some s
  | _ :: _, [] => none
  | l :: ls, c :: cs => if c = l then dropLit ls cs else none

/-- Capture groups of the assignment pattern: group 1 is the whitespace
runs with the literals version and equals sign, group 2 and 4 the two
quote characters, group 3 the value. -/
structure AssignMatch where
  ws1 : List Char
  ws2 : List Char
  ws3 : List Char
  q1 : Char
  val : List Char
  q2 : Char
deriving DecidableEq

/-- Group 1 of the assignment pattern. -/
def AssignMatch.g1 (m : AssignMatch) : List Char :=
  m.ws1 ++ (versionLit ++ (m.ws2 ++ ('=' :: m.ws3)))

/-- The whole text consumed by an assignment match. -/
def AssignMatch.whole (m : AssignMatch) : List Char :=
  m.g1 ++ (m.q1 :: (m.val ++ [m.q2]))

/-- Attempt the assignment pattern at the start of the text, which the
caller has placed at a line start.  This is the anchored regex of
`update_util_version`: optional whitespace, the word version, optional
whitespace, an equals sign, optional whitespace, a quote, a non-empty run
of non-quote characters, a quote. -/
def matchAssignAt (s : List Char) : Option (AssignMatch × List Char) :=
  (dropLit versionLit (scanSpaces s).2).bind fun s2 =>
  (scanChar '=' (scanSpaces s2).2).bind fun s4 =>
  (scanQuote (scanSpaces s4).2).bind fun q1s6 =>
  if (scanValue q1s6.2).1 = [] then none else
  (scanQuote (scanValue q1s6.2).2).bind fun q2rest =>
  some (⟨(scanSpaces s).1, (scanSpaces s2).1, (scanSpaces s4).1,
         q1s6.1, (scanValue q1s6.2).1, q2rest.1⟩, q2rest.2)

/-- Leftmost multiline search for the assignment pattern, as re.search on
a MULTILINE-compiled anchored pattern: the match may start at the start of
the text or right after a newline.  Returns the text before the match,
the match and the text after it. -/
def searchAssign : Bool → List Char → Option (List Char × AssignMatch × List Char)
  | lineStart, [] =>
    match (if lineStart then matchAssignAt [] else none) with
    | some (m, rest) => some ([], m, rest)
    | none => none
  | lineStart, c :: cs =>
    match (if lineStart then matchAssignAt (c :: cs) else none) with
    | some (m, rest) => some ([], m, rest)
    | none =>
      match searchAssign (c == '\n') cs with
      | some (p, m, r) => some (c :: p, m, r)
      | none => none

/-- Capture groups of the mapping-entry pattern: group 1 is the quoted key
with the colon separator, group 2 and 4 the value's quote characters,
group 3 the value. -/
structure DictMatch where
  kq1 : Char
  kq2 : Char
  ws1 : List Char
  ws2 : List Char
  q1 : Char
  val : List Char
  q2 : Char
deriving DecidableEq

/-- Group 1 of the mapping-entry pattern. -/
def DictMatch.g1 (m : DictMatch) : List Char :=
  m.kq1 :: (versionLit ++ (m.kq2 :: (m.ws1 ++ (':' :: m.ws2))))

/-- The whole text consumed by a mapping-entry match. -/
def DictMatch.whole (m : DictMatch) : List Char :=
  m.g1 ++ (m.q1 :: (m.val ++ [m.q2]))

/-- Attempt the mapping-entry pattern at the start of the text: a quote,
the word version, a quote, optional whitespace, a colon, optional
whitespace, a quote, a non-empty run of non-quote characters, a quote. -/
def matchDictAt (s : List Char) : Option (DictMatch × List Char) :=
  (scanQuote s).bind fun kq1s1 =>
  (dropLit versionLit kq1s1.2).bind fun s2 =>
  (scanQuote s2).bind fun kq2s3 =>
  (scanChar ':' (scanSpaces kq2s3.2).2).bind fun s4 =>
  (scanQuote (scanSpaces s4).2).bind fun q1s6 =>
  if (scanValue q1s6.2).1 = [] then none else
  (scanQuote (scanValue q1s6.2).2).bind fun q2rest =>
  some (⟨kq1s1.1, kq2s3.1, (scanSpaces kq2s3.2).1, (scanSpaces s4).1,
         q1s6.1, (scanValue q1s6.2).1, q2rest.1⟩, q2rest.2)

/-- Leftmost search for the unanchored mapping-entry pattern. -/
def searchDict : List Char → Option (List Char × DictMatch × List Char)
  | [] =>
    match matchDictAt [] with
    | some (m, rest) => some ([], m, rest)
    | none => none
  | c :: cs =>
    match matchDictAt (c :: cs) with
    | some (m, rest) => some ([], m, rest)
    | none =>
      match searchDict cs with
      | some (p, m, r) => some (c :: p, m, r)
      | none => none

/-- Outcome of `update_util_version`: the file was rewritten (carrying the
old value and the new file text), the value was already the requested one
(function returns False, nothing written), or neither pattern matched
(SystemExit with code 2). -/
inductive UpdateResult
  | changed (current : List Char) (newTxt : List Char)
  | noChange
  | notFound
deriving DecidableEq

/-- The version rewrite of `update_util_version`: try the assignment
pattern first, then the mapping-entry pattern; on a match compare the
captured value with the requested version, and rewrite only the first
match's value group, keeping every other character (re.sub with count
one, whose replacement reuses groups 1, 2 and 4 around the new version). -/
def update_util_version (new_version txt : List Char) : UpdateResult :=
  match searchAssign true txt with
  | some (p, m, rest) =>
    if m.val = new_version then .noChange
    else .changed m.val (p ++ (m.g1 ++ (m.q1 :: (new_version ++ (m.q2 :: rest)))))
  | none =>
    match searchDict txt with
    | some (p, m, rest) =>
      if m.val = new_version then .noChange
      else .changed m.val (p ++ (m.g1 ++ (m.q1 :: (new_version ++ (m.q2 :: rest)))))
    | none => .notFound

/-- Python str.strip: whitespace removed from both ends. -/
def pyStrip (s : List Char) : List Char :=
  ((s.dropWhile pySpace).reverse.dropWhile pySpace).reverse

/-- Command-line arguments of the script. -/
structure Args where
  version : List Char
  annotated : Bool
  push : Bool
  allowDirty : Bool
  tagName : Option (List Char)

/-- Environment of one run: the status query's exit code and captured
standard output, and an oracle telling which git commands succeed when
run (a failing command raises CalledProcessError). -/
structure GitEnv where
  statusExit : Nat
  statusOut : List Char
  ok : List (List Char) → Bool

/-- The clean-tree check `git_is_clean`: runs git status porcelain without
check-raising, and returns whether the stripped standard output is empty.
The status command's exit code is captured but never inspected. -/
def git_is_clean (env : GitEnv) : Bool := pyStrip env.statusOut == []

/-- Repository-relative path of the rewritten file. -/
def utilPath : List Char := str "plugin/util.py"

/-- The git add command staging exactly the target file. -/
def addCmd : List (List Char) := [str "git", str "add", utilPath]

/-- The git commit command with the fixed message template. -/
def commitCmd (v : List Char) : List (List Char) :=
  [str "git", str "commit", str "-m", str "Bump version to " ++ v]

/-- The tag-creating command: annotated with a templated message, or
lightweight. -/
def tagCmd (annotated : Bool) (tn : List Char) : List (List Char) :=
  if annotated then
    [str "git", str "tag", str "-a", tn, str "-m", str "Release " ++ tn]
  else
    [str "git", str "tag", tn]

/-- The push of the current branch head to the fixed remote. -/
def pushHeadCmd : List (List Char) := [str "git", str "push", str "origin", str "HEAD"]

/-- The push of the tag to the fixed remote. -/
def pushTagCmd (tn : List Char) : List (List Char) :=
  [str "git", str "push", str "origin", tn]

/-- The tag-then-push tail of main: create the tag, then push head and tag
when requested; the first failing command aborts with exit code 1.
Returns the commands actually issued (a failing command was issued too),
the stdout messages, and the exit code. -/
def tagPhase (ok : List (List Char) → Bool) (annotated push : Bool) (tn : List Char) :
    List (List (List Char)) × List (List Char) × Nat :=
  if ok (tagCmd annotated tn) then
    if push then
      if ok pushHeadCmd then
        if ok (pushTagCmd tn) then
          ([tagCmd annotated tn, pushHeadCmd, pushTagCmd tn],
           [str "created tag " ++ tn, str "pushed HEAD and tag to origin"], 0)
        else
          ([tagCmd annotated tn, pushHeadCmd, pushTagCmd tn], [str "created tag " ++ tn], 1)
      else
        ([tagCmd annotated tn, pushHeadCmd], [str "created tag " ++ tn], 1)
    else
      ([tagCmd annotated tn], [str "created tag " ++ tn], 0)
  else
    ([tagCmd annotated tn], [], 1)

/-- The git command sequence of main after the rewrite: stage and commit
when the file changed, then the tag-and-push tail. -/
def gitPhase (ok : List (List Char) → Bool) (changed annotated push : Bool)
    (v tn : List Char) : List (List (List Char)) × List (List Char) × Nat :=
  if changed then
    if ok addCmd then
      if ok (commitCmd v) then
        match tagPhase ok annotated push tn with
        | (cs, ms, e) => (addCmd :: commitCmd v :: cs, str "committed util.py change" :: ms, e)
      else ([addCmd, commitCmd v], [], 1)
    else ([addCmd], [], 1)
  else
    match tagPhase ok annotated push tn with
    | (cs, ms, e) => (cs, str "no util.py change to commit" :: ms, e)

/-- Observable outcome of one run of main: process exit code, the file
text written back (none when the file is untouched), the git commands
issued through run, and the stdout and stderr messages. -/
structure MainResult where
  exitCode : Nat
  fileWritten : Option (List Char)
  cmds : List (List (List Char))
  stdout : List (List Char)
  stderr : List (List Char)
deriving DecidableEq

/-- The whole procedure of main: the dirty-tree gate, the rewrite, then
the git phase.  The gate aborts with exit code 1 before the file is read
and before any git command is issued; a missing pattern aborts with exit
code 2; a git failure aborts with exit code 1. -/
def main (args : Args) (env : GitEnv) (txt : List Char) : MainResult :=
  if !args.allowDirty && !(git_is_clean env) then
    ⟨1, none, [], [], [str "working tree is not clean; commit or use --allow-dirty"]⟩
  else
    match update_util_version args.version txt with
    | .notFound =>
      ⟨2, none, [], [],
       [str "failed to locate a 'version' entry in plugin/util.py; please update manually"]⟩
    | .noChange =>
      match gitPhase env.ok false args.annotated args.push args.version
          (args.tagName.getD args.version) with
      | (cs, ms, e) =>
        ⟨e, none, cs, (str "util.version already " ++ args.version) :: ms,
         if e = 0 then [] else [str "git command failed"]⟩
    | .changed current newTxt =>
      match gitPhase env.ok true args.annotated args.push args.version
          (args.tagName.getD args.version) with
      | (cs, ms, e) =>
        ⟨e, some newTxt, cs,
         (str "updated plugin/util.py version " ++ current ++ (str " -> " ++ args.version)) :: ms,
         if e = 0 then [] else [str "git command failed"]⟩

/-- Substring test on character lists: does the second list occur
contiguously inside the first. -/
def beginsWith : List Char → List Char → Bool
  | [], _ => true
  | _ :: _, [] => false
  | p :: ps, c :: cs => p == c && beginsWith ps cs

/-- Does sub occur contiguously somewhere in s. -/
def hasSub (s sub : List Char) : Bool :=
  beginsWith sub s ||
    match s with
    | [] => false
    | _ :: cs => hasSub cs sub


/-- Environment in which the status query reports a clean tree and every
git command succeeds. -/
def envAllOk : GitEnv := ⟨0, [], fun _ => true⟩

/-- Environment in which every git command succeeds except the push of the
tag named by the second component. -/
def envPushTagFails (tn : List Char) : GitEnv :=
  ⟨0, [], fun c => !(c == pushTagCmd tn)⟩

/-- Well-formedness of an assignment match: what the pattern guarantees
about its capture groups. -/
def AssignWF (m : AssignMatch) : Prop :=
  (∀ c ∈ m.ws1, pySpace c = true) ∧ (∀ c ∈ m.ws2, pySpace c = true) ∧
  (∀ c ∈ m.ws3, pySpace c = true) ∧ isQuote m.q1 = true ∧
  m.val ≠ [] ∧ (∀ c ∈ m.val, isQuote c = false) ∧ isQuote m.q2 = true

/-- Well-formedness of a mapping-entry match. -/
def DictWF (m : DictMatch) : Prop :=
  isQuote m.kq1 = true ∧ isQuote m.kq2 = true ∧
  (∀ c ∈ m.ws1, pySpace c = true) ∧ (∀ c ∈ m.ws2, pySpace c = true) ∧
  isQuote m.q1 = true ∧ m.val ≠ [] ∧ (∀ c ∈ m.val, isQuote c = false) ∧
  isQuote m.q2 = true

theorem quote_cases {c : Char} (h : isQuote c = true) : c = '\'' ∨ c = '"' := by
  simpa [isQuote] using h

theorem quote_not_space {c : Char} (h : isQuote c = true) : pySpace c = false := by
  rcases quote_cases h with rfl | rfl <;> decide

theorem quote_ne_eq_sign {c : Char} (h : isQuote c = true) : c ≠ '=' := by
  rcases quote_cases h with rfl | rfl <;> decide

theorem quote_ne_colon {c : Char} (h : isQuote c = true) : c ≠ ':' := by
  rcases quote_cases h with rfl | rfl <;> decide

theorem quote_not_in_version {c : Char} (h : isQuote c = true) : c ∉ versionLit := by
  rcases quote_cases h with rfl | rfl <;> decide

theorem quote_ne_newline {c : Char} (h : isQuote c = true) : (c == '\n') = false := by
  rcases quote_cases h with rfl | rfl <;> decide

theorem takeWhile_all {p : Char → Bool} :
    ∀ {a : List Char}, (∀ c ∈ a, p c = true) → a.takeWhile p = a
  | [], _ => rfl
  | c :: cs, h => by
    have hc : p c = true := h c (List.mem_cons_self c cs)
    have ih : cs.takeWhile p = cs :=
      takeWhile_all (fun x hx => h x (List.mem_cons_of_mem c hx))
    simp [List.takeWhile_cons, hc, ih]

theorem dropWhile_all {p : Char → Bool} :
    ∀ {a : List Char}, (∀ c ∈ a, p c = true) → a.dropWhile p = []
  | [], _ => rfl
  | c :: cs, h => by
    have hc : p c = true := h c (List.mem_cons_self c cs)
    have ih : cs.dropWhile p = [] :=
      dropWhile_all (fun x hx => h x (List.mem_cons_of_mem c hx))
    simp [List.dropWhile_cons, hc, ih]

theorem takeWhile_barrier {p : Char → Bool} {c : Char} (hc : p c = false) :
    ∀ (d t : List Char), (d ++ c :: t).takeWhile p = d.takeWhile p
  | [], t => by simp [List.takeWhile_cons, hc]
  | a :: d, t => by
    by_cases ha : p a <;>
      simp [List.takeWhile_cons, ha, takeWhile_barrier hc d t]

theorem dropWhile_barrier {p : Char → Bool} {c : Char} (hc : p c = false) :
    ∀ (d t : List Char), (d ++ c :: t).dropWhile p = d.dropWhile p ++ c :: t
  | [], t => by simp [List.dropWhile_cons, hc]
  | a :: d, t => by
    by_cases ha : p a <;>
      simp [List.dropWhile_cons, ha, dropWhile_barrier hc d t]

theorem scanSpaces_split (s : List Char) : (scanSpaces s).1 ++ (scanSpaces s).2 = s := by
  simp only [scanSpaces]
  exact List.takeWhile_append_dropWhile pySpace s

theorem scanSpaces_mem {s : List Char} {c : Char} (h : c ∈ (scanSpaces s).1) :
    pySpace c = true :=
  List.mem_takeWhile_imp h

theorem scanValue_split (s : List Char) : (scanValue s).1 ++ (scanValue s).2 = s := by
  simp only [scanValue]
  exact List.takeWhile_append_dropWhile (fun c => !(isQuote c)) s

theorem scanValue_mem {s : List Char} {c : Char} (h : c ∈ (scanValue s).1) :
    isQuote c = false := by
  have := List.mem_takeWhile_imp h
  simpa using this

theorem scanSpaces_barrier {c : Char} (hc : pySpace c = false) (d t : List Char) :
    scanSpaces (d ++ c :: t) = ((scanSpaces d).1, (scanSpaces d).2 ++ c :: t) := by
  simp [scanSpaces, takeWhile_barrier hc, dropWhile_barrier hc]

theorem scanValue_barrier {c : Char} (hc : isQuote c = true) (d t : List Char) :
    scanValue (d ++ c :: t) = ((scanValue d).1, (scanValue d).2 ++ c :: t) := by
  have hc' : (fun x => !(isQuote x)) c = false := by simp [hc]
  simp only [scanValue]
  rw [takeWhile_barrier (p := fun x => !(isQuote x)) hc',
    dropWhile_barrier (p := fun x => !(isQuote x)) hc']

theorem scanSpaces_exact {c : Char} {a : List Char} (ha : ∀ x ∈ a, pySpace x = true)
    (hc : pySpace c = false) (t : List Char) :
    scanSpaces (a ++ c :: t) = (a, c :: t) := by
  rw [scanSpaces_barrier hc]
  simp [scanSpaces, takeWhile_all ha, dropWhile_all ha]

theorem scanValue_exact {q : Char} {v : List Char} (hv : ∀ x ∈ v, isQuote x = false)
    (hq : isQuote q = true) (t : List Char) :
    scanValue (v ++ q :: t) = (v, q :: t) := by
  rw [scanValue_barrier hq]
  have hv' : ∀ x ∈ v, (fun y => !(isQuote y)) x = true := by
    intro x hx; simp [hv x hx]
  simp [scanValue, takeWhile_all hv', dropWhile_all hv']

theorem scanChar_sound {c : Char} {s t : List Char} (h : scanChar c s = some t) :
    s = c :: t := by
  cases s with
  | nil => simp [scanChar] at h
  | cons a s' =>
    by_cases ha : a = c
    · subst ha
      simp [scanChar] at h
      subst h
      rfl
    · simp [scanChar, ha] at h

theorem scanChar_self (c : Char) (t : List Char) : scanChar c (c :: t) = some t := by
  simp [scanChar]

theorem scanQuote_sound {s t : List Char} {q : Char} (h : scanQuote s = some (q, t)) :
    s = q :: t ∧ isQuote q = true := by
  cases s with
  | nil => simp [scanQuote] at h
  | cons a s' =>
    by_cases ha : isQuote a = true
    · simp only [scanQuote, if_pos ha, Option.some.injEq, Prod.mk.injEq] at h
      obtain ⟨h1, h2⟩ := h
      subst h1
      subst h2
      exact ⟨rfl, ha⟩
    · simp [scanQuote, ha] at h

theorem scanQuote_self {q : Char} (hq : isQuote q = true) (t : List Char) :
    scanQuote (q :: t) = some (q, t) := by
  simp [scanQuote, hq]

theorem dropLit_sound : ∀ {lit s r : List Char}, dropLit lit s = some r → s = lit ++ r
  | [], s, r, h => by
    cases h
    rfl
  | l :: ls, [], r, h => by cases h
  | l :: ls, c :: cs, r, h => by
    unfold dropLit at h
    split at h
    · rename_i hc
      subst hc
      simpa using dropLit_sound h
    · cases h

theorem dropLit_self : ∀ (lit t : List Char), dropLit lit (lit ++ t) = some t
  | [], t => rfl
  | l :: ls, t => by simp [dropLit, dropLit_self ls t]

theorem dropLit_barrier {c : Char} :
    ∀ (lit d t : List Char), c ∉ lit →
      dropLit lit (d ++ c :: t) = (dropLit lit d).map (fun e => e ++ c :: t)
  | [], d, t, _ => by simp [dropLit]
  | l :: ls, [], t, h => by
    have hc : c ≠ l := by
      intro e
      exact h (by simp [e])
    simp [dropLit, hc]
  | l :: ls, a :: d, t, h => by
    by_cases ha : a = l
    · subst ha
      simp only [List.cons_append, dropLit, if_pos rfl]
      exact dropLit_barrier ls d t (fun hx => h (by simp [hx]))
    · simp [dropLit, ha]

theorem matchAssignAt_sound {s : List Char} {m : AssignMatch} {rest : List Char}
    (h : matchAssignAt s = some (m, rest)) : s = m.whole ++ rest ∧ AssignWF m := by
  unfold matchAssignAt at h
  cases h1 : dropLit versionLit (scanSpaces s).2 with
  | none => rw [h1] at h; simp at h
  | some s2 =>
    rw [h1, Option.some_bind] at h
    cases h2 : scanChar '=' (scanSpaces s2).2 with
    | none => rw [h2] at h; simp at h
    | some s4 =>
      rw [h2, Option.some_bind] at h
      cases h3 : scanQuote (scanSpaces s4).2 with
      | none => rw [h3] at h; simp at h
      | some q1s6 =>
        rw [h3, Option.some_bind] at h
        obtain ⟨q1, s6⟩ := q1s6
        by_cases hv : (scanValue s6).1 = []
        · rw [if_pos hv] at h; simp at h
        · rw [if_neg hv] at h
          cases h4 : scanQuote (scanValue s6).2 with
          | none => rw [h4] at h; simp at h
          | some q2r =>
            rw [h4, Option.some_bind] at h
            obtain ⟨q2, r⟩ := q2r
            simp only [Option.some.injEq, Prod.mk.injEq] at h
            obtain ⟨hm, hr⟩ := h
            subst hr
            subst hm
            have e2 : (scanSpaces s).2 = versionLit ++ s2 := dropLit_sound h1
            have e4 : (scanSpaces s2).2 = '=' :: s4 := scanChar_sound h2
            have e6 := scanQuote_sound h3
            have e8 := scanQuote_sound h4
            constructor
            · have goal1 : s = (scanSpaces s).1 ++ (versionLit ++
                  ((scanSpaces s2).1 ++ ('=' :: ((scanSpaces s4).1 ++
                  (q1 :: ((scanValue s6).1 ++ (q2 :: r))))))) := by
                conv_lhs => rw [← scanSpaces_split s, e2, ← scanSpaces_split s2, e4,
                  ← scanSpaces_split s4, e6.1, ← scanValue_split s6, e8.1]
              conv_lhs => rw [goal1]
              simp [AssignMatch.whole, AssignMatch.g1, List.append_assoc]
            · exact ⟨fun c hc => scanSpaces_mem hc, fun c hc => scanSpaces_mem hc,
                fun c hc => scanSpaces_mem hc, e6.2, hv,
                fun c hc => scanValue_mem hc, e8.2⟩

theorem matchAssignAt_build {m : AssignMatch} (hWF : AssignWF m) (rest : List Char) :
    matchAssignAt (m.whole ++ rest) = some (m, rest) := by
  obtain ⟨mws1, mws2, mws3, mq1, mval, mq2⟩ := m
  obtain ⟨h1, h2, h3, hq1, hval, hvq, hq2⟩ := hWF
  simp only [AssignMatch.whole, AssignMatch.g1] at *
  simp [matchAssignAt, versionLit, List.cons_append, List.append_assoc,
    scanSpaces_exact (c := 'v') h1 (by decide),
    scanSpaces_exact (c := '=') h2 (by decide),
    scanSpaces_exact (c := mq1) h3 (quote_not_space hq1),
    scanValue_exact hvq hq2, dropLit, scanChar, scanQuote, hq1, hq2, hval]

theorem matchDictAt_sound {s : List Char} {m : DictMatch} {rest : List Char}
    (h : matchDictAt s = some (m, rest)) : s = m.whole ++ rest ∧ DictWF m := by
  unfold matchDictAt at h
  cases h0 : scanQuote s with
  | none => rw [h0] at h; simp at h
  | some kq1s1 =>
    rw [h0, Option.some_bind] at h
    obtain ⟨kq1, s1⟩ := kq1s1
    cases h1 : dropLit versionLit s1 with
    | none => rw [h1] at h; simp at h
    | some s2 =>
      rw [h1, Option.some_bind] at h
      cases h2 : scanQuote s2 with
      | none => rw [h2] at h; simp at h
      | some kq2s3 =>
        rw [h2, Option.some_bind] at h
        obtain ⟨kq2, s3⟩ := kq2s3
        cases h3 : scanChar ':' (scanSpaces s3).2 with
        | none => rw [h3] at h; simp at h
        | some s4 =>
          rw [h3, Option.some_bind] at h
          cases h4 : scanQuote (scanSpaces s4).2 with
          | none => rw [h4] at h; simp at h
          | some q1s6 =>
            rw [h4, Option.some_bind] at h
            obtain ⟨q1, s6⟩ := q1s6
            by_cases hv : (scanValue s6).1 = []
            · rw [if_pos hv] at h; simp at h
            · rw [if_neg hv] at h
              cases h5 : scanQuote (scanValue s6).2 with
              | none => rw [h5] at h; simp at h
              | some q2r =>
                rw [h5, Option.some_bind] at h
                obtain ⟨q2, r⟩ := q2r
                simp only [Option.some.injEq, Prod.mk.injEq] at h
                obtain ⟨hm, hr⟩ := h
                subst hr
                subst hm
                have e0 := scanQuote_sound h0
                have e1 : s1 = versionLit ++ s2 := dropLit_sound h1
                have e2 := scanQuote_sound h2
                have e3 : (scanSpaces s3).2 = ':' :: s4 := scanChar_sound h3
                have e4 := scanQuote_sound h4
                have e5 := scanQuote_sound h5
                constructor
                · have goal1 : s = kq1 :: (versionLit ++ (kq2 :: ((scanSpaces s3).1 ++
                      (':' :: ((scanSpaces s4).1 ++ (q1 :: ((scanValue s6).1 ++
                      (q2 :: r)))))))) := by
                    conv_lhs => rw [e0.1, e1, e2.1, ← scanSpaces_split s3, e3,
                      ← scanSpaces_split s4, e4.1, ← scanValue_split s6, e5.1]
                  conv_lhs => rw [goal1]
                  simp [DictMatch.whole, DictMatch.g1, List.append_assoc]
                · exact ⟨e0.2, e2.2, fun c hc => scanSpaces_mem hc,
                    fun c hc => scanSpaces_mem hc, e4.2, hv,
                    fun c hc => scanValue_mem hc, e5.2⟩

theorem matchDictAt_build {m : DictMatch} (hWF : DictWF m) (rest : List Char) :
    matchDictAt (m.whole ++ rest) = some (m, rest) := by
  obtain ⟨mkq1, mkq2, mws1, mws2, mq1, mval, mq2⟩ := m
  obtain ⟨hkq1, hkq2, h1, h2, hq1, hval, hvq, hq2⟩ := hWF
  simp only [DictMatch.whole, DictMatch.g1] at *
  simp [matchDictAt, versionLit, List.cons_append, List.append_assoc,
    scanSpaces_exact (c := ':') h1 (by decide),
    scanSpaces_exact (c := mq1) h2 (quote_not_space hq1),
    scanValue_exact hvq hq2, dropLit, scanChar, scanQuote, hkq1, hkq2, hq1, hq2, hval]

theorem dropLit_barrier_of {c : Char} {lit : List Char} (hc : c ∉ lit) (d t : List Char) :
    dropLit lit (d ++ c :: t) = (dropLit lit d).map (fun e => e ++ c :: t) :=
  dropLit_barrier lit d t hc

theorem matchAssignAt_indep {q1 q2 : Char} (hq1 : isQuote q1 = true)
    (hq2 : isQuote q2 = true) {x y : List Char} (hx : x ≠ []) (hy : y ≠ [])
    (hxq : ∀ c ∈ x, isQuote c = false) (hyq : ∀ c ∈ y, isQuote c = false)
    (d r : List Char) :
    (matchAssignAt (d ++ (q1 :: (x ++ (q2 :: r))))).isSome =
      (matchAssignAt (d ++ (q1 :: (y ++ (q2 :: r))))).isSome := by
  have hq1s : pySpace q1 = false := quote_not_space hq1
  have hq1v : q1 ∉ versionLit := quote_not_in_version hq1
  have hq1e : q1 ≠ '=' := quote_ne_eq_sign hq1
  unfold matchAssignAt
  simp only [scanSpaces_barrier hq1s, dropLit_barrier_of hq1v]
  cases hdl : dropLit versionLit (scanSpaces d).2 with
  | none => simp
  | some d2 =>
    simp only [Option.map_some', Option.some_bind]
    simp only [scanSpaces_barrier hq1s]
    cases hd2 : (scanSpaces d2).2 with
    | nil =>
      simp only [List.nil_append]
      simp [scanChar, hq1e]
    | cons a d3 =>
      simp only [List.cons_append]
      by_cases ha : a = '='
      · subst ha
        simp only [scanChar_self, Option.some_bind]
        simp only [scanSpaces_barrier hq1s]
        cases hd3 : (scanSpaces d3).2 with
        | nil =>
          simp only [List.nil_append]
          rw [scanQuote_self hq1, scanQuote_self hq1]
          simp only [Option.some_bind]
          rw [scanValue_exact hxq hq2, scanValue_exact hyq hq2]
          simp [hx, hy, scanQuote_self hq2]
        | cons b d4 =>
          simp only [List.cons_append]
          by_cases hb : isQuote b = true
          · simp only [scanQuote_self hb, Option.some_bind]
            simp only [scanValue_barrier hq1]
            by_cases hv4 : (scanValue d4).1 = []
            · simp [hv4]
            · simp only [if_neg hv4]
              cases hd4 : (scanValue d4).2 with
              | nil =>
                simp only [List.nil_append]
                simp [scanQuote_self hq1]
              | cons e d5 =>
                simp only [List.cons_append]
                by_cases he : isQuote e = true
                · simp [scanQuote, he]
                · simp [scanQuote, he]
          · simp [scanQuote, hb]
      · simp [scanChar, ha]

theorem matchDictAt_indep {q1 q2 : Char} (hq1 : isQuote q1 = true)
    (hq2 : isQuote q2 = true) {x y : List Char} (hx : x ≠ []) (hy : y ≠ [])
    (hxq : ∀ c ∈ x, isQuote c = false) (hyq : ∀ c ∈ y, isQuote c = false)
    {d : List Char} (hd9 : 9 ≤ d.length) (r : List Char) :
    (matchDictAt (d ++ (q1 :: (x ++ (q2 :: r))))).isSome =
      (matchDictAt (d ++ (q1 :: (y ++ (q2 :: r))))).isSome := by
  have hq1s : pySpace q1 = false := quote_not_space hq1
  have hq1v : q1 ∉ versionLit := quote_not_in_version hq1
  have hq1c : q1 ≠ ':' := quote_ne_colon hq1
  unfold matchDictAt
  cases d with
  | nil => simp at hd9
  | cons a d1 =>
    simp only [List.cons_append]
    by_cases ha : isQuote a = true
    · simp only [scanQuote_self ha, Option.some_bind]
      simp only [dropLit_barrier_of hq1v]
      cases hdl : dropLit versionLit d1 with
      | none => simp
      | some d2 =>
        simp only [Option.map_some', Option.some_bind]
        cases d2 with
        | nil =>
          exfalso
          have : d1 = versionLit := by simpa using dropLit_sound hdl
          subst this
          simp [versionLit] at hd9
        | cons b d3 =>
          simp only [List.cons_append]
          by_cases hb : isQuote b = true
          · simp only [scanQuote_self hb, Option.some_bind]
            simp only [scanSpaces_barrier hq1s]
            cases hd3 : (scanSpaces d3).2 with
            | nil =>
              simp only [List.nil_append]
              simp [scanChar, hq1c]
            | cons e d4 =>
              simp only [List.cons_append]
              by_cases he : e = ':'
              · subst he
                simp only [scanChar_self, Option.some_bind]
                simp only [scanSpaces_barrier hq1s]
                cases hd4 : (scanSpaces d4).2 with
                | nil =>
                  simp only [List.nil_append]
                  rw [scanQuote_self hq1, scanQuote_self hq1]
                  simp only [Option.some_bind]
                  rw [scanValue_exact hxq hq2, scanValue_exact hyq hq2]
                  simp [hx, hy, scanQuote_self hq2]
                | cons f d5 =>
                  simp only [List.cons_append]
                  by_cases hf : isQuote f = true
                  · simp only [scanQuote_self hf, Option.some_bind]
                    simp only [scanValue_barrier hq1]
                    by_cases hv5 : (scanValue d5).1 = []
                    · simp [hv5]
                    · simp only [if_neg hv5]
                      cases hd5 : (scanValue d5).2 with
                      | nil =>
                        simp only [List.nil_append]
                        simp [scanQuote_self hq1]
                      | cons g d6 =>
                        simp only [List.cons_append]
                        by_cases hg : isQuote g = true
                        · simp [scanQuote, hg]
                        · simp [scanQuote, hg]
                  · simp [scanQuote, hf]
              · simp [scanChar, he]
          · simp [scanQuote, hb]
    · simp [scanQuote, ha]

theorem option_none_of_isSome_eq {α β : Type} {o₁ : Option α} {o₂ : Option β}
    (h : o₁.isSome = o₂.isSome) (h1 : o₁ = none) : o₂ = none := by
  cases o₂ with
  | none => rfl
  | some v => rw [h1] at h; simp at h

theorem searchAssign_eq (ls : Bool) (s : List Char) :
    searchAssign ls s =
      match (if ls then matchAssignAt s else none) with
      | some (m, rest) => some ([], m, rest)
      | none =>
        match s with
        | [] => none
        | c :: cs =>
          match searchAssign (c == '\n') cs with
          | some (p, m, r) => some (c :: p, m, r)
          | none => none := by
  cases s with
  | nil => cases ls <;> rfl
  | cons c cs => rfl

theorem searchDict_eq (s : List Char) :
    searchDict s =
      match matchDictAt s with
      | some (m, rest) => some ([], m, rest)
      | none =>
        match s with
        | [] => none
        | c :: cs =>
          match searchDict cs with
          | some (p, m, r) => some (c :: p, m, r)
          | none => none := by
  cases s with
  | nil => rfl
  | cons c cs => rfl

theorem assign_whole_ne_nil (m : AssignMatch) : m.whole ≠ [] := by
  simp [AssignMatch.whole, AssignMatch.g1, versionLit]

theorem dict_whole_ne_nil (m : DictMatch) : m.whole ≠ [] := by
  simp [DictMatch.whole, DictMatch.g1]

theorem dict_g1_length (m : DictMatch) : 10 ≤ m.g1.length := by
  simp [DictMatch.g1, versionLit]
  omega

theorem searchAssign_sound :
    ∀ {s : List Char} {ls : Bool} {p rest : List Char} {m : AssignMatch},
      searchAssign ls s = some (p, m, rest) →
      s = p ++ (m.whole ++ rest) ∧ AssignWF m := by
  intro s
  induction s with
  | nil =>
    intro ls p rest m h
    have hnil : matchAssignAt ([] : List Char) = none := rfl
    cases ls <;> simp [searchAssign, hnil] at h
  | cons c cs ih =>
    intro ls p rest m h
    rw [searchAssign_eq] at h
    cases hma : (if ls then matchAssignAt (c :: cs) else none) with
    | some mr =>
      rw [hma] at h
      obtain ⟨m', rest'⟩ := mr
      simp only [Option.some.injEq, Prod.mk.injEq] at h
      obtain ⟨hp, hm, hr⟩ := h
      subst hp
      subst hm
      subst hr
      cases ls with
      | false => simp at hma
      | true =>
        rw [if_pos rfl] at hma
        have := matchAssignAt_sound hma
        exact ⟨by rw [this.1]; rfl, this.2⟩
    | none =>
      simp only [hma] at h
      cases hrec : searchAssign (c == '\n') cs with
      | none => rw [hrec] at h; simp at h
      | some pmr =>
        rw [hrec] at h
        obtain ⟨p', m', r'⟩ := pmr
        simp only [Option.some.injEq, Prod.mk.injEq] at h
        obtain ⟨hp, hm, hr⟩ := h
        subst hm
        subst hr
        subst hp
        have := ih hrec
        exact ⟨by rw [List.cons_append, ← this.1], this.2⟩

theorem searchDict_sound :
    ∀ {s : List Char} {p rest : List Char} {m : DictMatch},
      searchDict s = some (p, m, rest) →
      s = p ++ (m.whole ++ rest) ∧ DictWF m := by
  intro s
  induction s with
  | nil =>
    intro p rest m h
    have hnil : matchDictAt ([] : List Char) = none := rfl
    simp [searchDict, hnil] at h
  | cons c cs ih =>
    intro p rest m h
    rw [searchDict_eq] at h
    cases hma : matchDictAt (c :: cs) with
    | some mr =>
      rw [hma] at h
      obtain ⟨m', rest'⟩ := mr
      simp only [Option.some.injEq, Prod.mk.injEq] at h
      obtain ⟨hp, hm, hr⟩ := h
      subst hp
      subst hm
      subst hr
      have := matchDictAt_sound hma
      exact ⟨by rw [this.1]; rfl, this.2⟩
    | none =>
      simp only [hma] at h
      cases hrec : searchDict cs with
      | none => rw [hrec] at h; simp at h
      | some pmr =>
        rw [hrec] at h
        obtain ⟨p', m', r'⟩ := pmr
        simp only [Option.some.injEq, Prod.mk.injEq] at h
        obtain ⟨hp, hm, hr⟩ := h
        subst hm
        subst hr
        subst hp
        have := ih hrec
        exact ⟨by rw [List.cons_append, ← this.1], this.2⟩

theorem searchAssign_true_none {s : List Char} (h : searchAssign true s = none) :
    matchAssignAt s = none := by
  cases hma : matchAssignAt s with
  | none => rfl
  | some mr =>
    rw [searchAssign_eq] at h
    simp [hma] at h

theorem searchAssign_cons_none {ls : Bool} {c : Char} {cs : List Char}
    (h : searchAssign ls (c :: cs) = none) : searchAssign (c == '\n') cs = none := by
  rw [searchAssign_eq] at h
  cases hma : (if ls then matchAssignAt (c :: cs) else none) with
  | some mr => rw [hma] at h; obtain ⟨m', r'⟩ := mr; simp at h
  | none =>
    simp only [hma] at h
    cases hrec : searchAssign (c == '\n') cs with
    | none => rfl
    | some pmr => rw [hrec] at h; obtain ⟨p', m', r'⟩ := pmr; simp at h

theorem searchAssign_append_none :
    ∀ (a : List Char) {ls : Bool} (t : List Char),
      searchAssign ls (a ++ t) = none → ∃ b, searchAssign b t = none
  | [], ls, t, h => ⟨ls, h⟩
  | c :: a, ls, t, h => by
    rw [List.cons_append] at h
    exact searchAssign_append_none a t (searchAssign_cons_none h)

theorem searchAssign_skip_build :
    ∀ (y : List Char) (t : List Char), (∀ c ∈ y, (c == '\n') = false) →
      searchAssign false t = none → searchAssign false (y ++ t) = none
  | [], t, _, h => h
  | c :: y, t, hy, h => by
    have hc : (c == '\n') = false := hy c (List.mem_cons_self c y)
    have ih := searchAssign_skip_build y t (fun x hx => hy x (List.mem_cons_of_mem c hx)) h
    rw [List.cons_append, searchAssign_eq]
    simp [hc, ih]

theorem searchAssign_empty_scan {ls : Bool} {s : List Char} {m : AssignMatch}
    {rest : List Char} (h : searchAssign ls s = some ([], m, rest)) :
    matchAssignAt s = some (m, rest) := by
  cases s with
  | nil =>
    have hnil : matchAssignAt ([] : List Char) = none := rfl
    cases ls <;> simp [searchAssign, hnil] at h
  | cons c cs =>
    rw [searchAssign_eq] at h
    cases hma : (if ls then matchAssignAt (c :: cs) else none) with
    | some mr =>
      rw [hma] at h
      obtain ⟨m', r'⟩ := mr
      simp only [Option.some.injEq, Prod.mk.injEq, true_and] at h
      obtain ⟨hm, hr⟩ := h
      subst hm
      subst hr
      cases ls with
      | false => simp at hma
      | true => rw [if_pos rfl] at hma; exact hma
    | none =>
      simp only [hma] at h
      cases hrec : searchAssign (c == '\n') cs with
      | none => rw [hrec] at h; simp at h
      | some pmr => rw [hrec] at h; obtain ⟨p', m', r'⟩ := pmr; simp at h

theorem searchDict_empty_scan {s : List Char} {m : DictMatch}
    {rest : List Char} (h : searchDict s = some ([], m, rest)) :
    matchDictAt s = some (m, rest) := by
  cases s with
  | nil =>
    have hnil : matchDictAt ([] : List Char) = none := rfl
    simp [searchDict, hnil] at h
  | cons c cs =>
    rw [searchDict_eq] at h
    cases hma : matchDictAt (c :: cs) with
    | some mr =>
      rw [hma] at h
      obtain ⟨m', r'⟩ := mr
      simp only [Option.some.injEq, Prod.mk.injEq, true_and] at h
      obtain ⟨hm, hr⟩ := h
      subst hm
      subst hr
      rfl
    | none =>
      simp only [hma] at h
      cases hrec : searchDict cs with
      | none => rw [hrec] at h; simp at h
      | some pmr => rw [hrec] at h; obtain ⟨p', m', r'⟩ := pmr; simp at h

theorem searchAssign_line_start {ls : Bool} {s p rest : List Char} {m : AssignMatch}
    (h : searchAssign ls (p ++ s) = some (p, m, rest)) : ∃ b, searchAssign b s = some ([], m, rest) := by
  induction p generalizing ls with
  | nil => exact ⟨ls, by simpa using h⟩
  | cons c p ih =>
    rw [List.cons_append, searchAssign_eq] at h
    cases hma : (if ls then matchAssignAt (c :: (p ++ s)) else none) with
    | some mr =>
      rw [hma] at h
      obtain ⟨m', r'⟩ := mr
      simp at h
    | none =>
      simp only [hma] at h
      cases hrec : searchAssign (c == '\n') (p ++ s) with
      | none => rw [hrec] at h; simp at h
      | some pmr =>
        rw [hrec] at h
        obtain ⟨p', m', r'⟩ := pmr
        simp only [Option.some.injEq, Prod.mk.injEq, List.cons.injEq, true_and] at h
        obtain ⟨hp, hm, hr⟩ := h
        subst hp
        subst hm
        subst hr
        exact ih hrec

theorem searchAssign_replace {y : List Char} (hy : y ≠ [])
    (hyq : ∀ c ∈ y, isQuote c = false) :
    ∀ (P : List Char) {ls : Bool} {m : AssignMatch} {rest : List Char},
      searchAssign ls (P ++ (m.whole ++ rest)) = some (P, m, rest) →
      searchAssign ls (P ++ (({ m with val := y } : AssignMatch).whole ++ rest)) =
        some (P, { m with val := y }, rest) := by
  intro P
  induction P with
  | nil =>
    intro ls m rest h
    simp only [List.nil_append] at h ⊢
    have hwf := (searchAssign_sound h).2
    have hwf' : AssignWF { m with val := y } := by
      obtain ⟨w1, w2, w3, q1w, vne, vq, q2w⟩ := hwf
      exact ⟨w1, w2, w3, q1w, hy, hyq, q2w⟩
    have hls : ls = true := by
      cases ls with
      | true => rfl
      | false =>
        exfalso
        obtain ⟨c, cs, hcc⟩ : ∃ c cs, m.whole ++ rest = c :: cs := by
          cases hw : m.whole with
          | nil => exact absurd hw (assign_whole_ne_nil m)
          | cons a l => exact ⟨a, l ++ rest, by simp [hw]⟩
        rw [searchAssign_eq] at h
        simp only [Bool.false_eq_true, if_false, hcc] at h
        cases hrec : searchAssign (c == '\n') cs with
        | none => rw [hrec] at h; simp at h
        | some pmr => rw [hrec] at h; obtain ⟨p', m', r'⟩ := pmr; simp at h
    subst hls
    rw [searchAssign_eq]
    simp [matchAssignAt_build hwf' rest]
  | cons c P ih =>
    intro ls m rest h
    simp only [List.cons_append] at h ⊢
    rw [searchAssign_eq] at h
    cases hma : (if ls then matchAssignAt (c :: (P ++ (m.whole ++ rest))) else none) with
    | some mr =>
      rw [hma] at h
      obtain ⟨m', r'⟩ := mr
      simp at h
    | none =>
      simp only [hma] at h
      cases hrec : searchAssign (c == '\n') (P ++ (m.whole ++ rest)) with
      | none => rw [hrec] at h; simp at h
      | some pmr =>
        rw [hrec] at h
        obtain ⟨p', m', r'⟩ := pmr
        simp only [Option.some.injEq, Prod.mk.injEq, List.cons.injEq, true_and] at h
        obtain ⟨hp, hm, hr⟩ := h
        subst hp
        subst hm
        subst hr
        have hrec' := ih hrec
        obtain ⟨w1, w2, w3, q1w, vne, vq, q2w⟩ := (searchAssign_sound hrec).2
        cases ls with
        | false =>
          rw [searchAssign_eq]
          simp [hrec']
        | true =>
          rw [if_pos rfl] at hma
          have hy0 : matchAssignAt (c :: (p' ++ (({ m' with val := y } :
              AssignMatch).whole ++ r'))) = none := by
            have hiso := matchAssignAt_indep q1w q2w vne hy vq hyq (c :: (p' ++ m'.g1)) r'
            have e1 : (c :: (p' ++ m'.g1)) ++ (m'.q1 :: (m'.val ++ (m'.q2 :: r'))) =
                c :: (p' ++ (m'.whole ++ r')) := by
              simp [AssignMatch.whole, List.append_assoc]
            have e2 : (c :: (p' ++ m'.g1)) ++ (m'.q1 :: (y ++ (m'.q2 :: r'))) =
                c :: (p' ++ (({ m' with val := y } : AssignMatch).whole ++ r')) := by
              simp [AssignMatch.whole, AssignMatch.g1, List.append_assoc]
            rw [e1, e2] at hiso
            exact option_none_of_isSome_eq hiso hma
          rw [searchAssign_eq]
          simp [hy0, hrec']

theorem searchDict_replace {y : List Char} (hy : y ≠ [])
    (hyq : ∀ c ∈ y, isQuote c = false) :
    ∀ (P : List Char) {m : DictMatch} {rest : List Char},
      searchDict (P ++ (m.whole ++ rest)) = some (P, m, rest) →
      searchDict (P ++ (({ m with val := y } : DictMatch).whole ++ rest)) =
        some (P, { m with val := y }, rest) := by
  intro P
  induction P with
  | nil =>
    intro m rest h
    simp only [List.nil_append] at h ⊢
    have hwf := (searchDict_sound h).2
    have hwf' : DictWF { m with val := y } := by
      obtain ⟨k1, k2, w1, w2, q1w, vne, vq, q2w⟩ := hwf
      exact ⟨k1, k2, w1, w2, q1w, hy, hyq, q2w⟩
    rw [searchDict_eq]
    simp [matchDictAt_build hwf' rest]
  | cons c P ih =>
    intro m rest h
    simp only [List.cons_append] at h ⊢
    rw [searchDict_eq] at h
    cases hma : matchDictAt (c :: (P ++ (m.whole ++ rest))) with
    | some mr =>
      rw [hma] at h
      obtain ⟨m', r'⟩ := mr
      simp at h
    | none =>
      simp only [hma] at h
      cases hrec : searchDict (P ++ (m.whole ++ rest)) with
      | none => rw [hrec] at h; simp at h
      | some pmr =>
        rw [hrec] at h
        obtain ⟨p', m', r'⟩ := pmr
        simp only [Option.some.injEq, Prod.mk.injEq, List.cons.injEq, true_and] at h
        obtain ⟨hp, hm, hr⟩ := h
        subst hp
        subst hm
        subst hr
        have hrec' := ih hrec
        obtain ⟨k1, k2, w1, w2, q1w, vne, vq, q2w⟩ := (searchDict_sound hrec).2
        have hy0 : matchDictAt (c :: (p' ++ (({ m' with val := y } :
            DictMatch).whole ++ r'))) = none := by
          have hd9 : 9 ≤ (c :: (p' ++ m'.g1)).length := by
            have := dict_g1_length m'
            simp only [List.length_cons, List.length_append]
            omega
          have hiso := matchDictAt_indep q1w q2w vne hy vq hyq hd9 r'
          have e1 : (c :: (p' ++ m'.g1)) ++ (m'.q1 :: (m'.val ++ (m'.q2 :: r'))) =
              c :: (p' ++ (m'.whole ++ r')) := by
            simp [DictMatch.whole, List.append_assoc]
          have e2 : (c :: (p' ++ m'.g1)) ++ (m'.q1 :: (y ++ (m'.q2 :: r'))) =
              c :: (p' ++ (({ m' with val := y } : DictMatch).whole ++ r')) := by
            simp [DictMatch.whole, DictMatch.g1, List.append_assoc]
          rw [e1, e2] at hiso
          exact option_none_of_isSome_eq hiso hma
        rw [searchDict_eq]
        simp [hy0, hrec']

theorem searchAssign_none_replace {q1 q2 : Char} (hq1 : isQuote q1 = true)
    (hq2 : isQuote q2 = true) {x y : List Char} (hx : x ≠ []) (hy : y ≠ [])
    (hxq : ∀ c ∈ x, isQuote c = false) (hyq : ∀ c ∈ y, isQuote c = false)
    (hyn : ∀ c ∈ y, (c == '\n') = false) :
    ∀ (D : List Char) (b : Bool) (r : List Char),
      searchAssign b (D ++ (q1 :: (x ++ (q2 :: r)))) = none →
      searchAssign b (D ++ (q1 :: (y ++ (q2 :: r)))) = none
  | [], b, r, h => by
    simp only [List.nil_append] at h ⊢
    have h2 : searchAssign false (x ++ (q2 :: r)) = none := by
      have := searchAssign_cons_none h
      rwa [quote_ne_newline hq1] at this
    obtain ⟨b2, hb2⟩ := searchAssign_append_none x (q2 :: r) h2
    have h3 : searchAssign false r = none := by
      have := searchAssign_cons_none hb2
      rwa [quote_ne_newline hq2] at this
    have h4 : searchAssign false (q2 :: r) = none := by
      rw [searchAssign_eq]
      simp [quote_ne_newline hq2, h3]
    have h5 : searchAssign false (y ++ (q2 :: r)) = none :=
      searchAssign_skip_build y _ hyn h4
    cases b with
    | false =>
      rw [searchAssign_eq]
      simp [quote_ne_newline hq1, h5]
    | true =>
      have hx0 : matchAssignAt (q1 :: (x ++ (q2 :: r))) = none := searchAssign_true_none h
      have hy0 : matchAssignAt (q1 :: (y ++ (q2 :: r))) = none := by
        have hiso := matchAssignAt_indep hq1 hq2 hx hy hxq hyq [] r
        simp only [List.nil_append] at hiso
        exact option_none_of_isSome_eq hiso hx0
      rw [searchAssign_eq]
      simp [hy0, quote_ne_newline hq1, h5]
  | c :: D, b, r, h => by
    simp only [List.cons_append] at h ⊢
    have hrec := searchAssign_cons_none h
    have hrec' := searchAssign_none_replace hq1 hq2 hx hy hxq hyq hyn D (c == '\n') r hrec
    cases b with
    | false =>
      rw [searchAssign_eq]
      simp [hrec']
    | true =>
      have hx0 := searchAssign_true_none h
      have hy0 : matchAssignAt (c :: (D ++ (q1 :: (y ++ (q2 :: r))))) = none := by
        have hiso := matchAssignAt_indep hq1 hq2 hx hy hxq hyq (c :: D) r
        simp only [List.cons_append] at hiso
        exact option_none_of_isSome_eq hiso hx0
      rw [searchAssign_eq]
      simp [hy0, hrec']

theorem main_gate_pass {args : Args} {env : GitEnv}
    (hg : args.allowDirty = true ∨ git_is_clean env = true) :
    (!args.allowDirty && !(git_is_clean env)) = false := by
  rcases hg with h | h <;> simp [h]

theorem gitPhase_false (ok : List (List Char) → Bool) (annotated push : Bool)
    (v tn : List Char) :
    gitPhase ok false annotated push v tn =
      ((tagPhase ok annotated push tn).1,
       str "no util.py change to commit" :: (tagPhase ok annotated push tn).2.1,
       (tagPhase ok annotated push tn).2.2) := by
  rcases htp : tagPhase ok annotated push tn with ⟨cs, ms, e⟩
  simp [gitPhase, htp]

theorem gitPhase_true_ok (ok : List (List Char) → Bool) (annotated push : Bool)
    (v tn : List Char) (ha : ok addCmd = true) (hc : ok (commitCmd v) = true) :
    gitPhase ok true annotated push v tn =
      (addCmd :: (commitCmd v :: (tagPhase ok annotated push tn).1),
       str "committed util.py change" :: (tagPhase ok annotated push tn).2.1,
       (tagPhase ok annotated push tn).2.2) := by
  rcases htp : tagPhase ok annotated push tn with ⟨cs, ms, e⟩
  simp [gitPhase, ha, hc, htp]

theorem tagPhase_head (ok : List (List Char) → Bool) (annotated push : Bool)
    (tn : List Char) :
    (tagPhase ok annotated push tn).1.head? = some (tagCmd annotated tn) := by
  unfold tagPhase
  by_cases h1 : ok (tagCmd annotated tn) = true <;> by_cases h2 : push = true <;>
    by_cases h3 : ok pushHeadCmd = true <;> by_cases h4 : ok (pushTagCmd tn) = true <;>
    simp [h1, h2, h3, h4]

theorem tagPhase_mem (ok : List (List Char) → Bool) (annotated push : Bool)
    (tn : List Char) :
    ∀ c ∈ (tagPhase ok annotated push tn).1,
      c = tagCmd annotated tn ∨ c = pushHeadCmd ∨ c = pushTagCmd tn := by
  intro c hc
  unfold tagPhase at hc
  by_cases h1 : ok (tagCmd annotated tn) = true <;> by_cases h2 : push = true <;>
    by_cases h3 : ok pushHeadCmd = true <;> by_cases h4 : ok (pushTagCmd tn) = true <;>
    simp [h1, h2, h3, h4] at hc <;> tauto

theorem tagPhase_partial (ok : List (List Char) → Bool) (annotated : Bool)
    (tn : List Char) (htag : ok (tagCmd annotated tn) = true)
    (hph : ok pushHeadCmd = true) (hpt : ok (pushTagCmd tn) = false) :
    tagPhase ok annotated true tn =
      ([tagCmd annotated tn, pushHeadCmd, pushTagCmd tn], [str "created tag " ++ tn], 1) := by
  simp [tagPhase, htag, hph, hpt]

theorem gitPhase_mem (ok : List (List Char) → Bool) (changed annotated push : Bool)
    (v tn : List Char) :
    ∀ c ∈ (gitPhase ok changed annotated push v tn).1,
      c = addCmd ∨ c = commitCmd v ∨ c = tagCmd annotated tn ∨
        c = pushHeadCmd ∨ c = pushTagCmd tn := by
  intro c hc
  have htpm := tagPhase_mem ok annotated push tn
  unfold gitPhase at hc
  by_cases h1 : changed = true
  · rw [if_pos h1] at hc
    by_cases h2 : ok addCmd = true
    · rw [if_pos h2] at hc
      by_cases h3 : ok (commitCmd v) = true
      · rw [if_pos h3] at hc
        rcases htp : tagPhase ok annotated push tn with ⟨cs, ms, e⟩
        rw [htp] at hc
        simp at hc
        rcases hc with rfl | rfl | hcs
        · tauto
        · tauto
        · have := htpm c (by rw [htp]; exact hcs)
          tauto
      · rw [if_neg h3] at hc
        simp at hc
        rcases hc with rfl | rfl <;> tauto
    · rw [if_neg h2] at hc
      simp at hc
      subst hc
      tauto
  · rw [if_neg h1] at hc
    rcases htp : tagPhase ok annotated push tn with ⟨cs, ms, e⟩
    rw [htp] at hc
    simp at hc
    have := htpm c (by rw [htp]; exact hc)
    tauto

theorem main_cmds_subset (args : Args) (env : GitEnv) (txt : List Char) :
    ∀ c ∈ (main args env txt).cmds,
      c = addCmd ∨ c = commitCmd args.version ∨
        c = tagCmd args.annotated (args.tagName.getD args.version) ∨
        c = pushHeadCmd ∨ c = pushTagCmd (args.tagName.getD args.version) := by
  intro c hc
  unfold main at hc
  by_cases hgate : (!args.allowDirty && !(git_is_clean env)) = true
  · rw [if_pos hgate] at hc
    simp at hc
  · rw [if_neg hgate] at hc
    cases hu : update_util_version args.version txt with
    | notFound =>
      rw [hu] at hc
      simp at hc
    | noChange =>
      rw [hu] at hc
      rcases hgp : gitPhase env.ok false args.annotated args.push args.version
          (args.tagName.getD args.version) with ⟨cs, ms, e⟩
      rw [hgp] at hc
      simp at hc
      exact gitPhase_mem _ _ _ _ _ _ c (by rw [hgp]; exact hc)
    | changed cur nt =>
      rw [hu] at hc
      rcases hgp : gitPhase env.ok true args.annotated args.push args.version
          (args.tagName.getD args.version) with ⟨cs, ms, e⟩
      rw [hgp] at hc
      simp at hc
      exact gitPhase_mem _ _ _ _ _ _ c (by rw [hgp]; exact hc)

theorem main_noChange {args : Args} {env : GitEnv} {txt : List Char}
    (hg : args.allowDirty = true ∨ git_is_clean env = true)
    (h : update_util_version args.version txt = .noChange) :
    main args env txt =
      ⟨(tagPhase env.ok args.annotated args.push (args.tagName.getD args.version)).2.2,
       none,
       (tagPhase env.ok args.annotated args.push (args.tagName.getD args.version)).1,
       (str "util.version already " ++ args.version) ::
         (str "no util.py change to commit" ::
           (tagPhase env.ok args.annotated args.push (args.tagName.getD args.version)).2.1),
       if (tagPhase env.ok args.annotated args.push (args.tagName.getD args.version)).2.2 = 0
       then [] else [str "git command failed"]⟩ := by
  have hb := main_gate_pass hg
  unfold main
  rw [hb]
  simp only [Bool.false_eq_true, if_false, h]
  rw [gitPhase_false]

theorem main_changed {args : Args} {env : GitEnv} {txt cur nt : List Char}
    (hg : args.allowDirty = true ∨ git_is_clean env = true)
    (h : update_util_version args.version txt = .changed cur nt)
    (ha : env.ok addCmd = true) (hc : env.ok (commitCmd args.version) = true) :
    main args env txt =
      ⟨(tagPhase env.ok args.annotated args.push (args.tagName.getD args.version)).2.2,
       some nt,
       addCmd :: (commitCmd args.version ::
         (tagPhase env.ok args.annotated args.push (args.tagName.getD args.version)).1),
       (str "updated plugin/util.py version " ++ cur ++ (str " -> " ++ args.version)) ::
         (str "committed util.py change" ::
           (tagPhase env.ok args.annotated args.push (args.tagName.getD args.version)).2.1),
       if (tagPhase env.ok args.annotated args.push (args.tagName.getD args.version)).2.2 = 0
       then [] else [str "git command failed"]⟩ := by
  have hb := main_gate_pass hg
  unfold main
  rw [hb]
  simp only [Bool.false_eq_true, if_false, h]
  rw [gitPhase_true_ok env.ok args.annotated args.push args.version
    (args.tagName.getD args.version) ha hc]

theorem beginsWith_self : ∀ (b : List Char), beginsWith b b = true
  | [] => rfl
  | c :: cs => by simp [beginsWith, beginsWith_self cs]

theorem hasSub_append_self : ∀ (a b : List Char), hasSub (a ++ b) b = true
  | [], b => by
    cases b with
    | nil => rfl
    | cons c cs => simp [hasSub, beginsWith_self]
  | c :: a, b => by
    rw [List.cons_append]
    unfold hasSub
    simp [hasSub_append_self a b]

theorem cmd_ne_of_second {a b : List (List Char)} (h : a.get? 1 ≠ b.get? 1) : a ≠ b :=
  fun he => h (by rw [he])

theorem addCmd_get1 : addCmd.get? 1 = some (str "add") := rfl

theorem commitCmd_get1 (w : List Char) : (commitCmd w).get? 1 = some (str "commit") := rfl

theorem tagCmd_get1 (b : Bool) (tn : List Char) :
    (tagCmd b tn).get? 1 = some (str "tag") := by cases b <;> rfl

theorem pushHeadCmd_get1 : pushHeadCmd.get? 1 = some (str "push") := rfl

theorem pushTagCmd_get1 (tn : List Char) : (pushTagCmd tn).get? 1 = some (str "push") := rfl

/-- C2: the claim that the variable-assignment pattern requires the quote
character opening the value to equal the one closing it is false: the text
with a single-quote open and double-quote close matches, and likewise a
mapping entry whose value opens with a single quote and closes with a
double quote matches. -/
theorem C2_counterexample :
    searchAssign true (str "version = 'a\"") =
      some ([], ⟨[], [' '], [' '], '\'', ['a'], '"'⟩, []) ∧
    (⟨[], [' '], [' '], '\'', ['a'], '"'⟩ : AssignMatch).q1 ≠
      (⟨[], [' '], [' '], '\'', ['a'], '"'⟩ : AssignMatch).q2 ∧
    searchDict (str "'version': 'b\"") =
      some ([], ⟨'\'', '\'', [], [' '], '\'', ['b'], '"'⟩, []) := by
  refine ⟨by decide, by decide, by decide⟩

/-- C2 amended: each quoted position of both patterns independently
accepts a single or a double quote; the opening and closing quote of the
value (and of the key) need not be equal.  Any combination of quote
characters around a non-empty quote-free value matches. -/
theorem C2_quote_independent (q1 q2 kq1 kq2 : Char) (v rest : List Char)
    (hq1 : isQuote q1 = true) (hq2 : isQuote q2 = true)
    (hk1 : isQuote kq1 = true) (hk2 : isQuote kq2 = true)
    (hv : v ≠ []) (hvq : ∀ c ∈ v, isQuote c = false) :
    matchAssignAt (str "version = " ++ (q1 :: (v ++ (q2 :: rest)))) =
      some (⟨[], [' '], [' '], q1, v, q2⟩, rest) ∧
    matchDictAt (kq1 :: (versionLit ++ (kq2 :: (str ": " ++ (q1 :: (v ++ (q2 :: rest))))))) =
      some (⟨kq1, kq2, [], [' '], q1, v, q2⟩, rest) := by
  constructor
  · have hb := matchAssignAt_build (m := ⟨[], [' '], [' '], q1, v, q2⟩)
      ⟨by simp, (by intro c hc; simp at hc; subst hc; decide), (by intro c hc; simp at hc; subst hc; decide), hq1, hv, hvq, hq2⟩ rest
    have e : (⟨[], [' '], [' '], q1, v, q2⟩ : AssignMatch).whole ++ rest =
        str "version = " ++ (q1 :: (v ++ (q2 :: rest))) := by
      have e0 : str "version = " = versionLit ++ (' ' :: ('=' :: [' '])) := rfl
      rw [e0]
      simp [AssignMatch.whole, AssignMatch.g1, List.append_assoc]
    rw [← e]
    exact hb
  · have hb := matchDictAt_build (m := ⟨kq1, kq2, [], [' '], q1, v, q2⟩)
      ⟨hk1, hk2, by simp, (by intro c hc; simp at hc; subst hc; decide), hq1, hv, hvq, hq2⟩ rest
    have e : (⟨kq1, kq2, [], [' '], q1, v, q2⟩ : DictMatch).whole ++ rest =
        kq1 :: (versionLit ++ (kq2 :: (str ": " ++ (q1 :: (v ++ (q2 :: rest)))))) := by
      have e0 : str ": " = ':' :: [' '] := rfl
      rw [e0]
      simp [DictMatch.whole, DictMatch.g1, List.append_assoc]
    rw [← e]
    exact hb

/-- C2 witness: the amended statement at a concrete mixed-quote input. -/
theorem C2_witness :
    matchAssignAt (str "version = " ++ ('\'' :: (str "1.0" ++ ('"' :: [])))) =
      some (⟨[], [' '], [' '], '\'', str "1.0", '"'⟩, []) ∧
    matchDictAt ('"' :: (versionLit ++ ('\'' :: (str ": " ++ ('\'' :: (str "1.0" ++ ('"' :: []))))))) =
      some (⟨'"', '\'', [], [' '], '\'', str "1.0", '"'⟩, []) :=
  C2_quote_independent '\'' '"' '"' '\'' (str "1.0") [] (by decide) (by decide)
    (by decide) (by decide) (by decide) (by decide)

/-- C3: on a target text matched by neither pattern, the rewrite aborts the
whole procedure with exit code 2, writes nothing back to the file, issues
no git command, and prints a diagnostic that names the target file. -/
theorem C3_not_found_exits_2 (args : Args) (env : GitEnv) (txt : List Char)
    (hg : args.allowDirty = true ∨ git_is_clean env = true)
    (h1 : searchAssign true txt = none) (h2 : searchDict txt = none) :
    main args env txt =
      ⟨2, none, [], [],
       [str "failed to locate a 'version' entry in plugin/util.py; please update manually"]⟩ ∧
    hasSub (str "failed to locate a 'version' entry in plugin/util.py; please update manually")
      utilPath = true := by
  constructor
  · have hu : update_util_version args.version txt = .notFound := by
      unfold update_util_version
      rw [h1, h2]
    have hb := main_gate_pass hg
    unfold main
    rw [hb]
    simp only [Bool.false_eq_true, if_false, hu]
  · decide

/-- C3 witness: a concrete pattern-free file. -/
theorem C3_witness :
    main ⟨str "1.0", false, false, true, none⟩ envAllOk (str "no patterns here") =
      ⟨2, none, [], [],
       [str "failed to locate a 'version' entry in plugin/util.py; please update manually"]⟩ ∧
    hasSub (str "failed to locate a 'version' entry in plugin/util.py; please update manually")
      utilPath = true :=
  C3_not_found_exits_2 _ _ _ (Or.inl rfl) (by decide) (by decide)

/-- C4: without the allow-dirty flag, a dirty working tree makes the
procedure exit with code 1 before anything else happens: the result is a
constant independent of the target file, with no file written and no git
command issued. -/
theorem C4_dirty_gate (args : Args) (env : GitEnv) (txt : List Char)
    (h1 : args.allowDirty = false) (h2 : git_is_clean env = false) :
    main args env txt =
      ⟨1, none, [], [], [str "working tree is not clean; commit or use --allow-dirty"]⟩ := by
  unfold main
  simp [h1, h2]

/-- C4 witness: a concrete dirty environment. -/
theorem C4_witness :
    main ⟨str "1.0", false, false, false, none⟩ ⟨0, str " M plugin/util.py", fun _ => true⟩
      (str "version = '1'") =
      ⟨1, none, [], [], [str "working tree is not clean; commit or use --allow-dirty"]⟩ :=
  C4_dirty_gate _ _ _ rfl (by decide)

/-- C10: the clean-tree check depends only on the status output, never on
the status command's exit code; when the stripped output is empty the tree
is reported clean and the whole procedure behaves as if the dirty gate
were bypassed, whatever the exit code was. -/
theorem C10_clean_check_ignores_exit (e1 e2 : Nat) (out : List Char)
    (ok : List (List Char) → Bool) :
    git_is_clean ⟨e1, out, ok⟩ = git_is_clean ⟨e2, out, ok⟩ ∧
    (pyStrip out = [] →
      git_is_clean ⟨e1, out, ok⟩ = true ∧
      ∀ (args : Args) (txt : List Char),
        main args ⟨e1, out, ok⟩ txt = main { args with allowDirty := true } ⟨e1, out, ok⟩ txt) := by
  refine ⟨rfl, fun hstrip => ⟨by simp [git_is_clean, hstrip], fun args txt => ?_⟩⟩
  have hc : git_is_clean ⟨e1, out, ok⟩ = true := by simp [git_is_clean, hstrip]
  unfold main
  simp [hc]

/-- C10 witness: a failing status command with empty output passes the gate. -/
theorem C10_witness :
    git_is_clean ⟨128, [], fun _ => true⟩ = git_is_clean ⟨0, [], fun _ => true⟩ ∧
    (git_is_clean ⟨128, [], fun _ => true⟩ = true ∧
      main ⟨str "9", false, false, false, none⟩ ⟨128, [], fun _ => true⟩ (str "version = '1'") =
        main ⟨str "9", false, false, true, none⟩ ⟨128, [], fun _ => true⟩ (str "version = '1'")) := by
  have h := C10_clean_check_ignores_exit 128 0 [] (fun _ => true)
  exact ⟨h.1, (h.2 rfl).1, (h.2 rfl).2 ⟨str "9", false, false, false, none⟩ (str "version = '1'")⟩

/-- C5: whenever the variable-assignment pattern matches anywhere in the
file, the rewrite is determined entirely by that match: the result is a
no-op exactly when its captured value equals the requested version, and
otherwise the rewritten text substitutes the version into that match; the
mapping-entry pattern is never consulted, wherever it may occur. -/
theorem C5_assign_priority (v txt p rest : List Char) (m : AssignMatch)
    (h : searchAssign true txt = some (p, m, rest)) :
    (update_util_version v txt = .noChange ↔ m.val = v) ∧
    (m.val ≠ v → update_util_version v txt =
      .changed m.val (p ++ (m.g1 ++ (m.q1 :: (v ++ (m.q2 :: rest)))))) := by
  unfold update_util_version
  rw [h]
  by_cases hv : m.val = v
  · simp [hv]
  · simp [hv]

/-- C5 witness: a file in which a mapping entry occurs before the
assignment; the assignment match is the one rewritten. -/
theorem C5_witness :
    update_util_version (str "2.0") (str "'version': '9.9'\nversion = '1.0'\n") =
      .changed (str "1.0") (str "'version': '9.9'\nversion = '2.0'\n") := by
  have h := C5_assign_priority (str "2.0") (str "'version': '9.9'\nversion = '1.0'\n")
    (str "'version': '9.9'\n") (str "\n") ⟨[], [' '], [' '], '\'', str "1.0", '\''⟩ (by decide)
  rw [h.2 (by decide)]
  decide

/-- C6: a rewrite that reports a change touches only the captured value
segment of the chosen match: the input decomposes as prefix, group 1,
opening quote, old value, closing quote, suffix, and the output is
byte-identical except that the old value is replaced by the new version. -/
theorem C6_frame (v txt cur nt : List Char)
    (h : update_util_version v txt = .changed cur nt) :
    ∃ p g1 q1 q2 rest,
      txt = p ++ (g1 ++ (q1 :: (cur ++ (q2 :: rest)))) ∧
      nt = p ++ (g1 ++ (q1 :: (v ++ (q2 :: rest)))) ∧
      cur ≠ v ∧ isQuote q1 = true ∧ isQuote q2 = true := by
  unfold update_util_version at h
  split at h
  next p m rest heq =>
    by_cases hv : m.val = v
    · rw [if_pos hv] at h
      simp at h
    · rw [if_neg hv] at h
      simp only [UpdateResult.changed.injEq] at h
      obtain ⟨hcur, hnt⟩ := h
      subst hcur
      subst hnt
      obtain ⟨hsp, ⟨w1, w2, w3, q1w, vne, vq, q2w⟩⟩ := searchAssign_sound heq
      refine ⟨p, m.g1, m.q1, m.q2, rest, ?_, rfl, hv, q1w, q2w⟩
      rw [hsp]
      simp [AssignMatch.whole, List.append_assoc]
  next heq =>
    split at h
    next p m rest heq2 =>
      by_cases hv : m.val = v
      · rw [if_pos hv] at h
        simp at h
      · rw [if_neg hv] at h
        simp only [UpdateResult.changed.injEq] at h
        obtain ⟨hcur, hnt⟩ := h
        subst hcur
        subst hnt
        obtain ⟨hsp, ⟨k1, k2, w1, w2, q1w, vne, vq, q2w⟩⟩ := searchDict_sound heq2
        refine ⟨p, m.g1, m.q1, m.q2, rest, ?_, rfl, hv, q1w, q2w⟩
        rw [hsp]
        simp [DictMatch.whole, List.append_assoc]
    next heq2 => simp at h

/-- C6 witness: a concrete changed rewrite decomposes as claimed. -/
theorem C6_witness :
    ∃ p g1 q1 q2 rest,
      str "version = '1.0'\n" = p ++ (g1 ++ (q1 :: (str "1.0" ++ (q2 :: rest)))) ∧
      str "version = '2.0'\n" = p ++ (g1 ++ (q1 :: (str "2.0" ++ (q2 :: rest)))) ∧
      str "1.0" ≠ str "2.0" ∧ isQuote q1 = true ∧ isQuote q2 = true :=
  C6_frame (str "2.0") (str "version = '1.0'\n") (str "1.0") (str "version = '2.0'\n")
    (by decide)

/-- C9: the rewrite is not idempotent for every version string: a version
containing a quote character is written into the file, but the second run
re-matches only up to the embedded quote, sees a different current value,
and rewrites again instead of reporting the version already set. -/
theorem C9_counterexample :
    update_util_version (str "a'b") (str "version = \"1\"\n") =
      .changed (str "1") (str "version = \"a'b\"\n") ∧
    update_util_version (str "a'b") (str "version = \"a'b\"\n") =
      .changed (str "a") (str "version = \"a'b'b\"\n") ∧
    update_util_version (str "a'b") (str "version = \"a'b\"\n") ≠ .noChange := by
  refine ⟨by decide, by decide, by decide⟩

/-- C9 amended: for a non-empty version containing no quote character and
no newline, the rewrite is idempotent: whenever a run rewrites the file,
re-running on the written text is a no-op reporting the version already
set, so nothing is written and the commit stage is skipped. -/
theorem C9_idempotent_quote_free (v txt cur nt : List Char) (hv : v ≠ [])
    (hvq : ∀ c ∈ v, isQuote c = false) (hvn : ∀ c ∈ v, (c == '\n') = false)
    (h : update_util_version v txt = .changed cur nt) :
    update_util_version v nt = .noChange := by
  unfold update_util_version at h
  split at h
  next p m rest heq =>
    by_cases hveq : m.val = v
    · rw [if_pos hveq] at h
      simp at h
    · rw [if_neg hveq] at h
      simp only [UpdateResult.changed.injEq] at h
      obtain ⟨hcur, hnt⟩ := h
      obtain ⟨hsp, hwf⟩ := searchAssign_sound heq
      rw [hsp] at heq
      have hrep := searchAssign_replace hv hvq p heq
      have hnt' : nt = p ++ (({ m with val := v } : AssignMatch).whole ++ rest) := by
        rw [← hnt]
        simp [AssignMatch.whole, AssignMatch.g1, List.append_assoc]
      have hsa : searchAssign true nt = some (p, { m with val := v }, rest) := by
        rw [hnt']
        exact hrep
      unfold update_util_version
      rw [hsa]
      simp
  next heq =>
    split at h
    next p m rest heq2 =>
      by_cases hveq : m.val = v
      · rw [if_pos hveq] at h
        simp at h
      · rw [if_neg hveq] at h
        simp only [UpdateResult.changed.injEq] at h
        obtain ⟨hcur, hnt⟩ := h
        obtain ⟨hsp, hwf⟩ := searchDict_sound heq2
        obtain ⟨k1, k2, w1, w2, q1w, vne, vq, q2w⟩ := hwf
        have hnone : searchAssign true (p ++ (m.whole ++ rest)) = none := by
          rw [← hsp]
          exact heq
        have e1 : p ++ (m.whole ++ rest) =
            (p ++ m.g1) ++ (m.q1 :: (m.val ++ (m.q2 :: rest))) := by
          simp [DictMatch.whole, List.append_assoc]
        rw [e1] at hnone
        have hnone' := searchAssign_none_replace q1w q2w vne hv vq hvq hvn
          (p ++ m.g1) true rest hnone
        rw [hsp] at heq2
        have hrep := searchDict_replace hv hvq p heq2
        have hnt' : nt = p ++ (({ m with val := v } : DictMatch).whole ++ rest) := by
          rw [← hnt]
          simp [DictMatch.whole, DictMatch.g1, List.append_assoc]
        have hnt2 : nt = (p ++ m.g1) ++ (m.q1 :: (v ++ (m.q2 :: rest))) := by
          rw [← hnt]
          simp [List.append_assoc]
        have hna : searchAssign true nt = none := by
          rw [hnt2]
          exact hnone'
        have hda : searchDict nt = some (p, { m with val := v }, rest) := by
          rw [hnt']
          exact hrep
        unfold update_util_version
        rw [hna, hda]
        simp
    next heq2 => simp at h

/-- C9 witness: a concrete rewrite followed by a no-op second run. -/
theorem C9_witness :
    update_util_version (str "2.0") (str "version = '1.0'\n") =
      .changed (str "1.0") (str "version = '2.0'\n") ∧
    update_util_version (str "2.0") (str "version = '2.0'\n") = .noChange :=
  ⟨by decide,
   C9_idempotent_quote_free (str "2.0") (str "version = '1.0'\n") (str "1.0")
     (str "version = '2.0'\n") (by decide) (by decide) (by decide) (by decide)⟩

/-- C1: the claim that the annotated tag's message embeds the version
string verbatim even under a tag-name override is false: the message is
templated from the tag name, so with version 1.2.3 and tag name v9 the
created annotated tag's message is Release v9, which does not contain the
version. -/
theorem C1_counterexample :
    (main ⟨str "1.2.3", true, false, true, some (str "v9")⟩ envAllOk
        (str "version = '1.0'\n")).cmds =
      [addCmd, commitCmd (str "1.2.3"), tagCmd true (str "v9")] ∧
    tagCmd true (str "v9") =
      [str "git", str "tag", str "-a", str "v9", str "-m", str "Release v9"] ∧
    hasSub (str "Release v9") (str "1.2.3") = false := by
  refine ⟨by decide, by decide, by decide⟩

/-- C1 amended: every annotated tag command issued by main carries the
message Release followed by the tag name, so the message embeds the tag
name verbatim; it embeds the version string exactly in the default case,
because without a tag-name override the tag name is the version itself. -/
theorem C1_tag_message_uses_tag_name (args : Args) (env : GitEnv) (txt : List Char)
    (hann : args.annotated = true) :
    ∀ c ∈ (main args env txt).cmds, c.get? 1 = some (str "tag") →
      c = [str "git", str "tag", str "-a", args.tagName.getD args.version, str "-m",
           str "Release " ++ args.tagName.getD args.version] ∧
      hasSub (str "Release " ++ args.tagName.getD args.version)
        (args.tagName.getD args.version) = true ∧
      (args.tagName = none → args.tagName.getD args.version = args.version) := by
  intro c hc htag
  rcases main_cmds_subset args env txt c hc with rfl | rfl | rfl | rfl | rfl
  · rw [addCmd_get1] at htag
    exact absurd htag (by decide)
  · rw [commitCmd_get1] at htag
    exact absurd htag (by decide)
  · refine ⟨by simp [tagCmd, hann], hasSub_append_self _ _, fun htn => by rw [htn]; rfl⟩
  · rw [pushHeadCmd_get1] at htag
    exact absurd htag (by decide)
  · rw [pushTagCmd_get1] at htag
    exact absurd htag (by decide)

/-- C1 witness: with no tag-name override the annotated tag command's
message is Release followed by the version, which contains the version. -/
theorem C1_witness :
    tagCmd true (str "1.2.3") ∈ (main ⟨str "1.2.3", true, false, true, none⟩ envAllOk
      (str "version = '1.0'\n")).cmds ∧
    (tagCmd true (str "1.2.3") = [str "git", str "tag", str "-a", str "1.2.3", str "-m",
        str "Release " ++ str "1.2.3"] ∧
     hasSub (str "Release " ++ str "1.2.3") (str "1.2.3") = true ∧
     ((none : Option (List Char)) = none →
       (none : Option (List Char)).getD (str "1.2.3") = str "1.2.3")) := by
  refine ⟨by decide, ?_⟩
  exact C1_tag_message_uses_tag_name ⟨str "1.2.3", true, false, true, none⟩ envAllOk
    (str "version = '1.0'\n") rfl (tagCmd true (str "1.2.3")) (by decide) (by decide)

/-- C7: when the matched value already equals the requested version, main
writes nothing back, issues no staging or commit command of any message,
reports the version as already set, and still issues the tag command as
the first git command. -/
theorem C7_noop_skips_commit (args : Args) (env : GitEnv) (txt : List Char)
    (hg : args.allowDirty = true ∨ git_is_clean env = true)
    (h : update_util_version args.version txt = .noChange) :
    (main args env txt).fileWritten = none ∧
    (main args env txt).cmds.head? =
      some (tagCmd args.annotated (args.tagName.getD args.version)) ∧
    (∀ c ∈ (main args env txt).cmds, c ≠ addCmd ∧ ∀ w, c ≠ commitCmd w) ∧
    (str "util.version already " ++ args.version) ∈ (main args env txt).stdout := by
  rw [main_noChange hg h]
  refine ⟨rfl, tagPhase_head _ _ _ _, ?_, List.mem_cons_self _ _⟩
  intro c hc
  rcases tagPhase_mem _ _ _ _ c hc with rfl | rfl | rfl
  · constructor
    · exact cmd_ne_of_second (by rw [tagCmd_get1, addCmd_get1]; decide)
    · intro w
      exact cmd_ne_of_second (by rw [tagCmd_get1, commitCmd_get1]; decide)
  · constructor
    · exact cmd_ne_of_second (by rw [pushHeadCmd_get1, addCmd_get1]; decide)
    · intro w
      exact cmd_ne_of_second (by rw [pushHeadCmd_get1, commitCmd_get1]; decide)
  · constructor
    · exact cmd_ne_of_second (by rw [pushTagCmd_get1, addCmd_get1]; decide)
    · intro w
      exact cmd_ne_of_second (by rw [pushTagCmd_get1, commitCmd_get1]; decide)

/-- C7 witness: a concrete no-change run still creates the tag. -/
theorem C7_witness :
    (main ⟨str "1.0", false, false, true, none⟩ envAllOk
        (str "version = '1.0'\n")).fileWritten = none ∧
    (main ⟨str "1.0", false, false, true, none⟩ envAllOk
        (str "version = '1.0'\n")).cmds.head? = some (tagCmd false (str "1.0")) ∧
    (∀ c ∈ (main ⟨str "1.0", false, false, true, none⟩ envAllOk
        (str "version = '1.0'\n")).cmds, c ≠ addCmd ∧ ∀ w, c ≠ commitCmd w) ∧
    (str "util.version already " ++ str "1.0") ∈
      (main ⟨str "1.0", false, false, true, none⟩ envAllOk
        (str "version = '1.0'\n")).stdout :=
  C7_noop_skips_commit ⟨str "1.0", false, false, true, none⟩ envAllOk
    (str "version = '1.0'\n") (Or.inl rfl) (by decide)

/-- C8: with push requested, after a successful tag creation main pushes
the branch head and then the tag as two separate commands to the remote
origin; when the head push succeeds and the tag push fails, the run exits
with code 1 and the failing tag push is the last command issued, with no
compensating action after it. -/
theorem C8_push_partial_failure (args : Args) (env : GitEnv) (txt : List Char)
    (hg : args.allowDirty = true ∨ git_is_clean env = true)
    (hpush : args.push = true)
    (hnf : update_util_version args.version txt ≠ .notFound)
    (hadd : env.ok addCmd = true) (hcommit : env.ok (commitCmd args.version) = true)
    (htag : env.ok (tagCmd args.annotated (args.tagName.getD args.version)) = true)
    (hph : env.ok pushHeadCmd = true)
    (hpt : env.ok (pushTagCmd (args.tagName.getD args.version)) = false) :
    (∃ pre, (main args env txt).cmds =
      pre ++ [pushHeadCmd, pushTagCmd (args.tagName.getD args.version)]) ∧
    (main args env txt).exitCode = 1 ∧
    pushHeadCmd = [str "git", str "push", str "origin", str "HEAD"] ∧
    pushTagCmd (args.tagName.getD args.version) =
      [str "git", str "push", str "origin", args.tagName.getD args.version] := by
  have htp := tagPhase_partial env.ok args.annotated (args.tagName.getD args.version)
    htag hph hpt
  cases hu : update_util_version args.version txt with
  | notFound => exact absurd hu hnf
  | noChange =>
    rw [main_noChange hg hu, hpush, htp]
    exact ⟨⟨[tagCmd args.annotated (args.tagName.getD args.version)], rfl⟩, rfl, rfl, rfl⟩
  | changed cur nt =>
    rw [main_changed hg hu hadd hcommit, hpush, htp]
    exact ⟨⟨[addCmd, commitCmd args.version,
      tagCmd args.annotated (args.tagName.getD args.version)], rfl⟩, rfl, rfl, rfl⟩

/-- C8 witness: a concrete run whose tag push fails after the head push
succeeded. -/
theorem C8_witness :
    (∃ pre, (main ⟨str "2.0", false, true, true, none⟩ (envPushTagFails (str "2.0"))
        (str "version = '1.0'\n")).cmds =
      pre ++ [pushHeadCmd, pushTagCmd (str "2.0")]) ∧
    (main ⟨str "2.0", false, true, true, none⟩ (envPushTagFails (str "2.0"))
        (str "version = '1.0'\n")).exitCode = 1 ∧
    pushHeadCmd = [str "git", str "push", str "origin", str "HEAD"] ∧
    pushTagCmd (str "2.0") = [str "git", str "push", str "origin", str "2.0"] :=
  C8_push_partial_failure ⟨str "2.0", false, true, true, none⟩ (envPushTagFails (str "2.0"))
    (str "version = '1.0'\n") (Or.inl rfl) rfl (by decide) (by decide) (by decide)
    (by decide) (by decide) (by decide)

end TagRelease
